import Mathlib

/-!
Verification of the evergreen-rs host-dump utility: a shallow embedding of
its JSON flattening transform (src/main.rs, to_flat_json_int and
to_flat_json), its path-joining helper (evergreen-rs-types, make_name), the
field-path enumeration generated by the EvgFields derive macro
(evergreen-rs-derive), and the per-host output selection of main.
-/

namespace Evergreen

/-- The tree of JSON values of the json crate: Null, Short (short string),
String, Number, Boolean, Object (ordered key to value pairs, iteration in
insertion order) and Array. Numbers are embedded as integers; their textual
rendering is their natural decimal form. -/
inductive JsonValue where
  | null : JsonValue
  | short (s : String) : JsonValue
  | str (s : String) : JsonValue
  | number (n : Int) : JsonValue
  | boolean (b : Bool) : JsonValue
  | object (o : List (String × JsonValue)) : JsonValue
  | array (a : List JsonValue) : JsonValue
deriving Repr

/-- An output sink, embedding the dyn Write argument of to_flat_json_int:
a state of type sigma and a write operation that appends one formatted
chunk and may fail with an error of type epsilon. -/
structure Writer (σ ε : Type) where
  write : σ → String → Except ε σ

mutual

/-- Embedding of to_flat_json_int from src/main.rs. Each scalar arm
performs one write of one formatted line; object and array arms loop over
the members, extending the prefix, and write nothing themselves. Errors
from the writer propagate immediately, as the question-mark operator does. -/
def to_flat_json_int {σ ε : Type} (w : Writer σ ε) (v : JsonValue) (pfx : String) (st : σ) : Except ε σ :=
  match v with
  | .null => w.write st (pfx ++ ":null\n")
  | .short s => w.write st (pfx ++ ":" ++ s ++ "\n")
  | .str s => w.write st (pfx ++ ":" ++ s ++ "\n")
  | .number n => w.write st (pfx ++ ":" ++ toString n ++ "\n")
  | .boolean b => w.write st (pfx ++ ":" ++ (if b then "true" else "false") ++ "\n")
  | .object o => objLoop w o pfx st
  | .array a => arrLoop w a pfx 0 st
termination_by sizeOf v

/-- The for loop of the Object arm of to_flat_json_int: for each field in
order, recurse with the key as prefix when the prefix is empty, else with
prefix, dot, key. -/
def objLoop {σ ε : Type} (w : Writer σ ε) (fields : List (String × JsonValue)) (pfx : String) (st : σ) : Except ε σ :=
  match fields with
  | [] => .ok st
  | (k, v) :: rest =>
    match to_flat_json_int w v (if pfx = "" then k else pfx ++ "." ++ k) st with
    | .ok st2 => objLoop w rest pfx st2
    | .error e => .error e
termination_by sizeOf fields

/-- The for loop of the Array arm of to_flat_json_int: for each element,
recurse with the decimal index as prefix when the prefix is empty, else
with prefix, dot, index. -/
def arrLoop {σ ε : Type} (w : Writer σ ε) (elems : List JsonValue) (pfx : String) (i : Nat) (st : σ) : Except ε σ :=
  match elems with
  | [] => .ok st
  | v :: rest =>
    match to_flat_json_int w v (if pfx = "" then toString i else pfx ++ "." ++ toString i) st with
    | .ok st2 => arrLoop w rest pfx (i + 1) st2
    | .error e => .error e
termination_by sizeOf elems

end

/-- The String output sink used by to_flat_json: appending to a Rust
String never fails, so the error type is empty. -/
def stringWriter : Writer String Empty :=
  ⟨fun st s => .ok (st ++ s)⟩

mutual

/-- The list of chunks written by to_flat_json_int, one chunk per write
call (each chunk is one full line ending in a newline). -/
def flatChunks (v : JsonValue) (pfx : String) : List String :=
  match v with
  | .null => [pfx ++ ":null\n"]
  | .short s => [pfx ++ ":" ++ s ++ "\n"]
  | .str s => [pfx ++ ":" ++ s ++ "\n"]
  | .number n => [pfx ++ ":" ++ toString n ++ "\n"]
  | .boolean b => [pfx ++ ":" ++ (if b then "true" else "false") ++ "\n"]
  | .object o => objChunks o pfx
  | .array a => arrChunks a pfx 0
termination_by sizeOf v

/-- Chunks written by the Object loop of to_flat_json_int. -/
def objChunks (fields : List (String × JsonValue)) (pfx : String) : List String :=
  match fields with
  | [] => []
  | (k, v) :: rest =>
    flatChunks v (if pfx = "" then k else pfx ++ "." ++ k) ++ objChunks rest pfx
termination_by sizeOf fields

/-- Chunks written by the Array loop of to_flat_json_int. -/
def arrChunks (elems : List JsonValue) (pfx : String) (i : Nat) : List String :=
  match elems with
  | [] => []
  | v :: rest =>
    flatChunks v (if pfx = "" then toString i else pfx ++ "." ++ toString i) ++ arrChunks rest pfx (i + 1)
termination_by sizeOf elems

end

/-- Folding string concatenation from an arbitrary accumulator prepends
the accumulator to the join of the list. -/
theorem join_foldl (l : List String) : ∀ s : String, l.foldl (fun r t => r ++ t) s = s ++ String.join l := by
  induction l with
  | nil => intro s; simp [String.join]
  | cons x xs ih =>
    intro s
    have h1 : (x :: xs).foldl (fun r t => r ++ t) s = xs.foldl (fun r t => r ++ t) (s ++ x) := rfl
    have h2 : String.join (x :: xs) = xs.foldl (fun r t => r ++ t) ("" ++ x) := rfl
    rw [h1, ih (s ++ x), h2, ih ("" ++ x)]
    simp [String.append_assoc]

/-- String.join distributes over list append. -/
theorem join_append (a b : List String) : String.join (a ++ b) = String.join a ++ String.join b := by
  induction a with
  | nil => simp [String.join]
  | cons x xs ih =>
    have h1 : String.join (x :: xs ++ b) = (xs ++ b).foldl (fun r t => r ++ t) ("" ++ x) := rfl
    have h2 : String.join (x :: xs) = xs.foldl (fun r t => r ++ t) ("" ++ x) := rfl
    rw [h1, join_foldl, h2, join_foldl, ih]
    simp [String.append_assoc]

mutual

/-- Running to_flat_json_int on the String sink always succeeds and
appends exactly the chunks, in order. -/
theorem to_flat_json_int_string (v : JsonValue) (pfx st : String) :
    to_flat_json_int stringWriter v pfx st = .ok (st ++ String.join (flatChunks v pfx)) := by
  cases v with
  | null => simp [to_flat_json_int, flatChunks, stringWriter, String.join]
  | short s => simp [to_flat_json_int, flatChunks, stringWriter, String.join]
  | str s => simp [to_flat_json_int, flatChunks, stringWriter, String.join]
  | number n => simp [to_flat_json_int, flatChunks, stringWriter, String.join]
  | boolean b => simp [to_flat_json_int, flatChunks, stringWriter, String.join]
  | object o =>
    rw [to_flat_json_int, flatChunks]
    exact objLoop_string o pfx st
  | array a =>
    rw [to_flat_json_int, flatChunks]
    exact arrLoop_string a pfx 0 st
termination_by sizeOf v

/-- The Object loop on the String sink always succeeds and appends
exactly the object chunks. -/
theorem objLoop_string (fields : List (String × JsonValue)) (pfx st : String) :
    objLoop stringWriter fields pfx st = .ok (st ++ String.join (objChunks fields pfx)) := by
  cases fields with
  | nil => simp [objLoop, objChunks, String.join]
  | cons kv rest =>
    obtain ⟨k, v⟩ := kv
    rw [objLoop, objChunks]
    rw [to_flat_json_int_string v (if pfx = "" then k else pfx ++ "." ++ k) st]
    dsimp only
    rw [objLoop_string rest pfx]
    rw [join_append, String.append_assoc]
termination_by sizeOf fields

/-- The Array loop on the String sink always succeeds and appends
exactly the array chunks. -/
theorem arrLoop_string (elems : List JsonValue) (pfx : String) (i : Nat) (st : String) :
    arrLoop stringWriter elems pfx i st = .ok (st ++ String.join (arrChunks elems pfx i)) := by
  cases elems with
  | nil => simp [arrLoop, arrChunks, String.join]
  | cons v rest =>
    rw [arrLoop, arrChunks]
    rw [to_flat_json_int_string v (if pfx = "" then toString i else pfx ++ "." ++ toString i) st]
    dsimp only
    rw [arrLoop_string rest pfx (i + 1)]
    rw [join_append, String.append_assoc]
termination_by sizeOf elems

end

mutual

/-- Modelled from the spec: the depth-first, left-to-right enumeration of
the leaf scalars reachable in a Tree Value, as path and rendered-scalar
pairs, object keys in their original order, array elements by ascending
index, path segments joined with a dot and an empty prefix contributing
no leading dot. -/
def leafEntries (v : JsonValue) (pfx : String) : List (String × String) :=
  match v with
  | .null => [(pfx, "null")]
  | .short s => [(pfx, s)]
  | .str s => [(pfx, s)]
  | .number n => [(pfx, toString n)]
  | .boolean b => [(pfx, if b then "true" else "false")]
  | .object o => leafEntriesFields o pfx
  | .array a => leafEntriesElems a pfx 0
termination_by sizeOf v

/-- Leaf enumeration under an object: keys in their original order. -/
def leafEntriesFields (fields : List (String × JsonValue)) (pfx : String) : List (String × String) :=
  match fields with
  | [] => []
  | (k, v) :: rest =>
    leafEntries v (if pfx = "" then k else pfx ++ "." ++ k) ++ leafEntriesFields rest pfx
termination_by sizeOf fields

/-- Leaf enumeration under an array: elements by ascending index. -/
def leafEntriesElems (elems : List JsonValue) (pfx : String) (i : Nat) : List (String × String) :=
  match elems with
  | [] => []
  | v :: rest =>
    leafEntries v (if pfx = "" then toString i else pfx ++ "." ++ toString i) ++ leafEntriesElems rest pfx (i + 1)
termination_by sizeOf elems

end

mutual

/-- The number of leaf scalars (Null, Short, String, Number, Boolean)
reachable in a Tree Value. -/
def leafCount (v : JsonValue) : Nat :=
  match v with
  | .null => 1
  | .short _ => 1
  | .str _ => 1
  | .number _ => 1
  | .boolean _ => 1
  | .object o => leafCountFields o
  | .array a => leafCountElems a
termination_by sizeOf v

/-- Leaf scalars reachable under the fields of an object. -/
def leafCountFields (fields : List (String × JsonValue)) : Nat :=
  match fields with
  | [] => 0
  | (_, v) :: rest => leafCount v + leafCountFields rest
termination_by sizeOf fields

/-- Leaf scalars reachable under the elements of an array. -/
def leafCountElems (elems : List JsonValue) : Nat :=
  match elems with
  | [] => 0
  | v :: rest => leafCount v + leafCountElems rest
termination_by sizeOf elems

end

mutual

/-- The depth of a Tree Value: scalars and empty containers have depth
one, containers one more than the deepest child. -/
def depth (v : JsonValue) : Nat :=
  match v with
  | .null => 1
  | .short _ => 1
  | .str _ => 1
  | .number _ => 1
  | .boolean _ => 1
  | .object o => 1 + depthFields o
  | .array a => 1 + depthElems a
termination_by sizeOf v

/-- Largest depth among the values of a list of object fields. -/
def depthFields (fields : List (String × JsonValue)) : Nat :=
  match fields with
  | [] => 0
  | (_, v) :: rest => max (depth v) (depthFields rest)
termination_by sizeOf fields

/-- Largest depth among a list of array elements. -/
def depthElems (elems : List JsonValue) : Nat :=
  match elems with
  | [] => 0
  | v :: rest => max (depth v) (depthElems rest)
termination_by sizeOf elems

end

/-- Every Tree Value has depth at least one. -/
theorem one_le_depth (v : JsonValue) : 1 ≤ depth v := by
  cases v with
  | object o => rw [depth]; omega
  | array a => rw [depth]; omega
  | null => rw [depth]
  | short s => rw [depth]
  | str s => rw [depth]
  | number n => rw [depth]
  | boolean b => rw [depth]

mutual

/-- The chunks written by to_flat_json_int are exactly the depth-first
leaf entries, each rendered as path, colon, value, newline. -/
theorem flatChunks_eq_leafEntries (v : JsonValue) (pfx : String) :
    flatChunks v pfx = (leafEntries v pfx).map (fun e => e.1 ++ ":" ++ e.2 ++ "\n") := by
  cases v with
  | null => simp [flatChunks, leafEntries, String.append_assoc]
  | short s => simp [flatChunks, leafEntries, String.append_assoc]
  | str s => simp [flatChunks, leafEntries, String.append_assoc]
  | number n => simp [flatChunks, leafEntries, String.append_assoc]
  | boolean b => simp [flatChunks, leafEntries, String.append_assoc]
  | object o =>
    rw [flatChunks, leafEntries]
    exact objChunks_eq o pfx
  | array a =>
    rw [flatChunks, leafEntries]
    exact arrChunks_eq a pfx 0
termination_by sizeOf v

/-- Object chunks are exactly the object leaf entries, rendered. -/
theorem objChunks_eq (fields : List (String × JsonValue)) (pfx : String) :
    objChunks fields pfx = (leafEntriesFields fields pfx).map (fun e => e.1 ++ ":" ++ e.2 ++ "\n") := by
  cases fields with
  | nil => simp [objChunks, leafEntriesFields]
  | cons kv rest =>
    obtain ⟨k, v⟩ := kv
    rw [objChunks, leafEntriesFields, List.map_append]
    rw [flatChunks_eq_leafEntries v, objChunks_eq rest]
termination_by sizeOf fields

/-- Array chunks are exactly the array leaf entries, rendered. -/
theorem arrChunks_eq (elems : List JsonValue) (pfx : String) (i : Nat) :
    arrChunks elems pfx i = (leafEntriesElems elems pfx i).map (fun e => e.1 ++ ":" ++ e.2 ++ "\n") := by
  cases elems with
  | nil => simp [arrChunks, leafEntriesElems]
  | cons v rest =>
    rw [arrChunks, leafEntriesElems, List.map_append]
    rw [flatChunks_eq_leafEntries v, arrChunks_eq rest]
termination_by sizeOf elems

end

mutual

/-- There is exactly one leaf entry per reachable leaf scalar. -/
theorem leafEntries_length (v : JsonValue) (pfx : String) :
    (leafEntries v pfx).length = leafCount v := by
  cases v with
  | null => simp [leafEntries, leafCount]
  | short s => simp [leafEntries, leafCount]
  | str s => simp [leafEntries, leafCount]
  | number n => simp [leafEntries, leafCount]
  | boolean b => simp [leafEntries, leafCount]
  | object o =>
    rw [leafEntries, leafCount]
    exact leafEntriesFields_length o pfx
  | array a =>
    rw [leafEntries, leafCount]
    exact leafEntriesElems_length a pfx 0
termination_by sizeOf v

/-- One leaf entry per leaf scalar under an object. -/
theorem leafEntriesFields_length (fields : List (String × JsonValue)) (pfx : String) :
    (leafEntriesFields fields pfx).length = leafCountFields fields := by
  cases fields with
  | nil => simp [leafEntriesFields, leafCountFields]
  | cons kv rest =>
    obtain ⟨k, v⟩ := kv
    rw [leafEntriesFields, leafCountFields, List.length_append]
    rw [leafEntries_length v, leafEntriesFields_length rest]
termination_by sizeOf fields

/-- One leaf entry per leaf scalar under an array. -/
theorem leafEntriesElems_length (elems : List JsonValue) (pfx : String) (i : Nat) :
    (leafEntriesElems elems pfx i).length = leafCountElems elems := by
  cases elems with
  | nil => simp [leafEntriesElems, leafCountElems]
  | cons v rest =>
    rw [leafEntriesElems, leafCountElems, List.length_append]
    rw [leafEntries_length v, leafEntriesElems_length rest]
termination_by sizeOf elems

end

/-- Embedding of to_flat_json from src/main.rs, parameterized by the
result of the external json parse: a parse error propagates unchanged via
the question-mark operator; otherwise the tree is flattened into a fresh
String, which cannot fail. -/
def to_flat_json {ε : Type} (parsed : Except ε JsonValue) : Except ε String :=
  match parsed with
  | .error e => .error e
  | .ok v =>
    match to_flat_json_int stringWriter v "" "" with
    | .ok r => .ok r
    | .error e => e.elim

/-- True exactly on the error branch of an Except. -/
def isErr {ε α : Type} : Except ε α → Bool
  | .ok _ => false
  | .error _ => true

/-- Embedding of make_name from evergreen-rs-types/src/lib.rs. -/
def make_name (pfx suffix : String) : String :=
  if pfx.length > 0 then pfx ++ "." ++ suffix else suffix

/-- The Distro record of src/main.rs. -/
structure Distro where
  distro_id : String
  provider : String
  image_id : String

/-- The Tag record of src/main.rs. -/
structure Tag where
  key : String
  value : String
  can_be_modified : Bool

/-- The Host record of src/main.rs. -/
structure Host where
  host_id : String
  host_url : String
  distro : Distro
  provisioned : Bool
  started_by : String
  host_type : String
  user : String
  status : String
  user_host : Bool
  no_expiration : Bool
  instance_tags : List Tag
  instance_type : String
  zone : String
  display_name : String
  home_volume_id : String

/-- The evg_fields_nested impl the EvgFields derive macro generates for
Distro: one push of make_name for each named field, in declaration
order; the output vector is modelled as a list, each push appending one
element. -/
def Distro.evg_fields_nested (_self : Distro) (pfx : String) (out : List String) : List String :=
  out ++ [make_name pfx "distro_id", make_name pfx "provider", make_name pfx "image_id"]

/-- The evg_fields_nested impl the EvgFields derive macro generates for
Tag. -/
def Tag.evg_fields_nested (_self : Tag) (pfx : String) (out : List String) : List String :=
  out ++ [make_name pfx "key", make_name pfx "value", make_name pfx "can_be_modified"]

/-- The evg_fields_nested impl the EvgFields derive macro generates for
Host: every named field contributes one push, including the nested
distro field and the instance_tags field of sequence type. -/
def Host.evg_fields_nested (_self : Host) (pfx : String) (out : List String) : List String :=
  out ++ [make_name pfx "host_id", make_name pfx "host_url", make_name pfx "distro",
    make_name pfx "provisioned", make_name pfx "started_by", make_name pfx "host_type",
    make_name pfx "user", make_name pfx "status", make_name pfx "user_host",
    make_name pfx "no_expiration", make_name pfx "instance_tags", make_name pfx "instance_type",
    make_name pfx "zone", make_name pfx "display_name", make_name pfx "home_volume_id"]

/-- The default evg_fields of the EvgFields trait, for Distro: start
from an empty vector and enumerate with an empty prefix. -/
def Distro.evg_fields (self : Distro) : List String :=
  self.evg_fields_nested "" []

/-- The default evg_fields of the EvgFields trait, for Tag. -/
def Tag.evg_fields (self : Tag) : List String :=
  self.evg_fields_nested "" []

/-- The default evg_fields of the EvgFields trait, for Host. -/
def Host.evg_fields (self : Host) : List String :=
  self.evg_fields_nested "" []

/-- The output mode of the command line, from src/main.rs. -/
inductive OutputType where
  | flat : OutputType
  | json : OutputType

/-- The line printed for one host once it passed the filter, from the
match on args.url in main: with url set, user at host_url; otherwise the
flattened text or the pretty JSON text according to the output mode. -/
def hostLine (url : Bool) (output : OutputType) (host : Host) (flat jsonPretty : String) : String :=
  match url with
  | true => host.user ++ "@" ++ host.host_url
  | false =>
    match output with
    | .flat => flat
    | .json => jsonPretty

/-- The body of the per-host loop of main: the host is skipped when a
filter regex is present and does not match the flattened text (the
regex matcher is passed as a predicate over the flattened text), else
one line is printed. -/
def processHost (url : Bool) (output : OutputType) (filt : Option (String → Bool)) (host : Host) (flat jsonPretty : String) : Option String :=
  match filt with
  | some m => if !(m flat) then none else some (hostLine url output host flat jsonPretty)
  | none => some (hostLine url output host flat jsonPretty)

/-- A sample Distro value. -/
def distroEx : Distro :=
  ⟨"ubuntu2204-large", "ec2", "ami-1234"⟩

/-- A sample Host value, used as the concrete input of witnesses. -/
def hostEx : Host :=
  ⟨"i-0abc", "ec2-1-2-3-4.compute.amazonaws.com", distroEx, true, "mark", "spawn",
    "mark", "running", true, false, [⟨"expire-on", "2021-01-01", true⟩],
    "m5.xlarge", "us-east-1a", "my-host", "vol-1"⟩

/-- A nonempty string has positive length. -/
theorem length_pos_of_ne_empty (p : String) (h : p ≠ "") : 0 < p.length := by
  cases p with
  | mk data =>
    cases data with
    | nil => exact absurd rfl h
    | cons c cs => simp [String.length]

/-- make_name with an empty prefix returns the suffix verbatim. -/
theorem make_name_empty (x : String) : make_name "" x = x := by
  simp [make_name]

/-- make_name with a nonempty prefix joins with a dot. -/
theorem make_name_of_ne (p x : String) (hp : p ≠ "") : make_name p x = p ++ "." ++ x := by
  simp [make_name, length_pos_of_ne_empty p hp]

/-- C1: for every finite Tree Value of depth at least one, flattening
from the empty prefix succeeds and writes exactly one line per leaf
scalar reachable in the tree — the output is the join of the depth-first
left-to-right leaf entries, object keys in their original order and
array elements by ascending index, and the number of entries equals the
number of reachable leaf scalars. -/
theorem claim_C1 (v : JsonValue) (_hd : 1 ≤ depth v) :
    to_flat_json_int stringWriter v "" "" =
      .ok (String.join ((leafEntries v "").map (fun e => e.1 ++ ":" ++ e.2 ++ "\n"))) ∧
    (leafEntries v "").length = leafCount v := by
  constructor
  · rw [to_flat_json_int_string, flatChunks_eq_leafEntries]
    rfl
  · exact leafEntries_length v ""

/-- Witness for C1 at the nested-object tree of the repo test suite. -/
theorem claim_C1_witness :
    1 ≤ depth (JsonValue.object [("a", JsonValue.object [("n", JsonValue.number 42)])]) ∧
    (to_flat_json_int stringWriter (JsonValue.object [("a", JsonValue.object [("n", JsonValue.number 42)])]) "" "" =
      .ok (String.join ((leafEntries (JsonValue.object [("a", JsonValue.object [("n", JsonValue.number 42)])]) "").map
        (fun e => e.1 ++ ":" ++ e.2 ++ "\n"))) ∧
    (leafEntries (JsonValue.object [("a", JsonValue.object [("n", JsonValue.number 42)])]) "").length =
      leafCount (JsonValue.object [("a", JsonValue.object [("n", JsonValue.number 42)])])) :=
  ⟨by rw [depth]; omega, claim_C1 _ (by rw [depth]; omega)⟩

/-- C2: for every writer and every prefix, an Object recurses on each
entry with child prefix the key when the prefix is empty and otherwise
prefix, dot, key; an Array recurses on each element with child prefix
the decimal index when the prefix is empty and otherwise prefix, dot,
index; and empty containers write nothing, leaving the sink state
unchanged. -/
theorem claim_C2 {σ ε : Type} (w : Writer σ ε) (pfx k : String) (v : JsonValue)
    (rest : List (String × JsonValue)) (elems : List JsonValue) (i : Nat) (st : σ) :
    to_flat_json_int w (.object ((k, v) :: rest)) pfx st =
      (to_flat_json_int w v (if pfx = "" then k else pfx ++ "." ++ k) st).bind
        (fun st2 => to_flat_json_int w (.object rest) pfx st2) ∧
    to_flat_json_int w (.array elems) pfx st = arrLoop w elems pfx 0 st ∧
    arrLoop w (v :: elems) pfx i st =
      (to_flat_json_int w v (if pfx = "" then toString i else pfx ++ "." ++ toString i) st).bind
        (fun st2 => arrLoop w elems pfx (i + 1) st2) ∧
    to_flat_json_int w (.object []) pfx st = .ok st ∧
    to_flat_json_int w (.array []) pfx st = .ok st := by
  refine ⟨?_, ?_, ?_, ?_, ?_⟩
  · rw [to_flat_json_int, objLoop]
    cases to_flat_json_int w v (if pfx = "" then k else pfx ++ "." ++ k) st with
    | ok st2 => simp [Except.bind, to_flat_json_int]
    | error e => simp [Except.bind]
  · rw [to_flat_json_int]
  · rw [arrLoop]
    cases to_flat_json_int w v (if pfx = "" then toString i else pfx ++ "." ++ toString i) st with
    | ok st2 => simp [Except.bind]
    | error e => simp [Except.bind]
  · simp [to_flat_json_int, objLoop]
  · simp [to_flat_json_int, arrLoop]

/-- C3: every scalar writes exactly one line, prefix, colon, rendering:
null renders as the text null, booleans as true or false, numbers in
decimal form, and both string variants verbatim; equivalently the chunk
list of a scalar is a singleton. -/
theorem claim_C3 {σ ε : Type} (w : Writer σ ε) (pfx s t : String) (n : Int) (b : Bool) (st : σ) :
    to_flat_json_int w .null pfx st = w.write st (pfx ++ ":" ++ "null" ++ "\n") ∧
    to_flat_json_int w (.short s) pfx st = w.write st (pfx ++ ":" ++ s ++ "\n") ∧
    to_flat_json_int w (.str t) pfx st = w.write st (pfx ++ ":" ++ t ++ "\n") ∧
    to_flat_json_int w (.number n) pfx st = w.write st (pfx ++ ":" ++ toString n ++ "\n") ∧
    to_flat_json_int w (.boolean b) pfx st =
      w.write st (pfx ++ ":" ++ (if b then "true" else "false") ++ "\n") ∧
    flatChunks .null pfx = [pfx ++ ":" ++ "null" ++ "\n"] ∧
    flatChunks (.short s) pfx = [pfx ++ ":" ++ s ++ "\n"] ∧
    flatChunks (.str t) pfx = [pfx ++ ":" ++ t ++ "\n"] ∧
    flatChunks (.number n) pfx = [pfx ++ ":" ++ toString n ++ "\n"] ∧
    flatChunks (.boolean b) pfx = [pfx ++ ":" ++ (if b then "true" else "false") ++ "\n"] := by
  have hnull : (":" ++ "null" ++ "\n" : String) = ":null\n" := by decide
  refine ⟨?_, ?_, ?_, ?_, ?_, ?_, ?_, ?_, ?_, ?_⟩ <;>
    simp [to_flat_json_int, flatChunks, String.append_assoc, hnull]

/-- C4: make_name with an empty prefix is the identity on the suffix,
and with a nonempty prefix joins prefix and suffix with a dot. -/
theorem claim_C4 (p x : String) (hp : p ≠ "") :
    make_name "" x = x ∧ make_name p x = p ++ "." ++ x :=
  ⟨make_name_empty x, make_name_of_ne p x hp⟩

/-- Witness for C4 at concrete strings. -/
theorem claim_C4_witness :
    ("p" : String) ≠ "" ∧ (make_name "" "x" = "x" ∧ make_name "p" "x" = "p" ++ "." ++ "x") :=
  ⟨by decide, claim_C4 "p" "x" (by decide)⟩

/-- A sample Tag value. -/
def tagEx : Tag :=
  ⟨"expire-on", "2021-01-01", true⟩

/-- C5: for each record type deriving EvgFields, evg_fields returns the
named fields verbatim in declaration order, and evg_fields_nested with a
nonempty prefix p prepends p and a dot to each field name. -/
theorem claim_C5 (d : Distro) (t : Tag) (h : Host) (p : String) (hp : p ≠ "") :
    d.evg_fields = ["distro_id", "provider", "image_id"] ∧
    t.evg_fields = ["key", "value", "can_be_modified"] ∧
    h.evg_fields = ["host_id", "host_url", "distro", "provisioned", "started_by",
      "host_type", "user", "status", "user_host", "no_expiration", "instance_tags",
      "instance_type", "zone", "display_name", "home_volume_id"] ∧
    d.evg_fields_nested p [] = [p ++ "." ++ "distro_id", p ++ "." ++ "provider",
      p ++ "." ++ "image_id"] ∧
    t.evg_fields_nested p [] = [p ++ "." ++ "key", p ++ "." ++ "value",
      p ++ "." ++ "can_be_modified"] ∧
    h.evg_fields_nested p [] = [p ++ "." ++ "host_id", p ++ "." ++ "host_url",
      p ++ "." ++ "distro", p ++ "." ++ "provisioned", p ++ "." ++ "started_by",
      p ++ "." ++ "host_type", p ++ "." ++ "user", p ++ "." ++ "status",
      p ++ "." ++ "user_host", p ++ "." ++ "no_expiration", p ++ "." ++ "instance_tags",
      p ++ "." ++ "instance_type", p ++ "." ++ "zone", p ++ "." ++ "display_name",
      p ++ "." ++ "home_volume_id"] := by
  refine ⟨?_, ?_, ?_, ?_, ?_, ?_⟩ <;>
    simp [Distro.evg_fields, Tag.evg_fields, Host.evg_fields, Distro.evg_fields_nested,
      Tag.evg_fields_nested, Host.evg_fields_nested, make_name_empty, make_name_of_ne _ _ hp]

/-- Witness for C5 at concrete record values and the prefix p. -/
theorem claim_C5_witness :
    ("p" : String) ≠ "" ∧
    (distroEx.evg_fields = ["distro_id", "provider", "image_id"] ∧
    tagEx.evg_fields = ["key", "value", "can_be_modified"] ∧
    hostEx.evg_fields = ["host_id", "host_url", "distro", "provisioned", "started_by",
      "host_type", "user", "status", "user_host", "no_expiration", "instance_tags",
      "instance_type", "zone", "display_name", "home_volume_id"] ∧
    distroEx.evg_fields_nested "p" [] = ["p" ++ "." ++ "distro_id", "p" ++ "." ++ "provider",
      "p" ++ "." ++ "image_id"] ∧
    tagEx.evg_fields_nested "p" [] = ["p" ++ "." ++ "key", "p" ++ "." ++ "value",
      "p" ++ "." ++ "can_be_modified"] ∧
    hostEx.evg_fields_nested "p" [] = ["p" ++ "." ++ "host_id", "p" ++ "." ++ "host_url",
      "p" ++ "." ++ "distro", "p" ++ "." ++ "provisioned", "p" ++ "." ++ "started_by",
      "p" ++ "." ++ "host_type", "p" ++ "." ++ "user", "p" ++ "." ++ "status",
      "p" ++ "." ++ "user_host", "p" ++ "." ++ "no_expiration", "p" ++ "." ++ "instance_tags",
      "p" ++ "." ++ "instance_type", "p" ++ "." ++ "zone", "p" ++ "." ++ "display_name",
      "p" ++ "." ++ "home_volume_id"]) :=
  ⟨by decide, claim_C5 distroEx tagEx hostEx "p" (by decide)⟩

/-- C6 is refuted: the claim says fields of sequence type contribute no
path, but the derive macro pushes a path for every named field whatever
its type, so the instance_tags field of Host, of type Vec of Tag, does
contribute the path instance_tags. -/
theorem claim_C6_counterexample : "instance_tags" ∈ hostEx.evg_fields := by
  decide

/-- C6 amended: only tuple-style records with unnamed fields contribute
no paths; a named field of sequence type contributes exactly one path,
its own name, like any other named field — instance_tags appears exactly
once in the enumeration of every Host. -/
theorem claim_C6_amended (h : Host) (pfx : String) (out : List String) :
    (h.evg_fields).count "instance_tags" = 1 ∧
    make_name pfx "instance_tags" ∈ h.evg_fields_nested pfx out := by
  constructor
  · have he : h.evg_fields = ["host_id", "host_url", "distro", "provisioned", "started_by",
      "host_type", "user", "status", "user_host", "no_expiration", "instance_tags",
      "instance_type", "zone", "display_name", "home_volume_id"] := rfl
    rw [he]
    decide
  · simp [Host.evg_fields_nested]

/-- C7: the flattening recursion terminates on every finite Tree Value
and every prefix: on the String sink it always reaches a result. -/
theorem claim_C7 (v : JsonValue) (pfx st : String) :
    ∃ out : String, to_flat_json_int stringWriter v pfx st = .ok out :=
  ⟨st ++ String.join (flatChunks v pfx), to_flat_json_int_string v pfx st⟩

/-- C8: flattening has no intrinsic error conditions: to_flat_json
fails exactly when the upstream parse failed, propagating that error
unchanged, and on every parsed Tree Value it returns ok with the joined
chunks. -/
theorem claim_C8 {ε : Type} (parsed : Except ε JsonValue) :
    isErr (to_flat_json parsed) = isErr parsed ∧
    to_flat_json parsed = (match parsed with
      | .error e => .error e
      | .ok v => .ok (String.join (flatChunks v ""))) := by
  cases parsed with
  | error e => simp [to_flat_json, isErr]
  | ok v =>
    rw [to_flat_json, to_flat_json_int_string v "" ""]
    simp [isErr]

/-- C9: a host that passes the optional filter is printed, under the
url flag, as user, at sign, host_url — whatever the output mode. -/
theorem claim_C9 (output : OutputType) (filt : Option (String → Bool)) (host : Host)
    (flat jsonPretty : String) (hpass : ∀ m, filt = some m → m flat = true) :
    processHost true output filt host flat jsonPretty =
      some (host.user ++ "@" ++ host.host_url) := by
  cases filt with
  | none => cases output <;> simp [processHost, hostLine]
  | some m =>
    have hm := hpass m rfl
    cases output <;> simp [processHost, hostLine, hm]

/-- Witness for C9 at a concrete host, a filter that matches, and both
output modes overridden by the url flag. -/
theorem claim_C9_witness :
    (∀ m, (some (fun x : String => x = "f")) = some m → m "f" = true) ∧
    processHost true OutputType.json (some (fun x : String => x = "f")) hostEx "f" "j" =
      some (hostEx.user ++ "@" ++ hostEx.host_url) :=
  ⟨fun m hm => by cases hm; simp, claim_C9 OutputType.json _ hostEx "f" "j"
    (fun m hm => by cases hm; simp)⟩

/-- C10: the generated evg_fields_nested only appends: the result is
the original vector followed by the paths produced from an empty
vector. -/
theorem claim_C10 (d : Distro) (t : Tag) (h : Host) (pfx : String) (out : List String) :
    d.evg_fields_nested pfx out = out ++ d.evg_fields_nested pfx [] ∧
    t.evg_fields_nested pfx out = out ++ t.evg_fields_nested pfx [] ∧
    h.evg_fields_nested pfx out = out ++ h.evg_fields_nested pfx [] := by
  refine ⟨?_, ?_, ?_⟩ <;>
    simp [Distro.evg_fields_nested, Tag.evg_fields_nested, Host.evg_fields_nested]

end Evergreen
